import Mathlib

/-! Verification of the string-processing logic of the comfyui-djb-utils
ComfyUI plugin nodes (`image_filename_extractor.py`, `resolution_detector.py`).

Python strings are modelled as `List Char`.  The `os.path` helpers follow the
POSIX (`posixpath`) semantics the code runs under. -/

namespace DjbUtils

/-- Whitespace characters removed by Python `str.strip()` (the ASCII subset,
which is all the repository's inputs can contain). -/
def isWs (c : Char) : Bool :=
  c == ' ' || c == '\t' || c == '\n' || c == '\r' || c == '\x0b' || c == '\x0c'

/-- Python `str.lstrip()`. -/
def lstrip (l : List Char) : List Char := l.dropWhile isWs

/-- Python `str.rstrip()`. -/
def rstrip (l : List Char) : List Char := (l.reverse.dropWhile isWs).reverse

/-- Python `str.strip()`. -/
def strip (l : List Char) : List Char := rstrip (lstrip l)

/-- Python `os.path.basename` (POSIX): everything after the last `/`. -/
def basename (l : List Char) : List Char :=
  (l.reverse.takeWhile (fun c => c != '/')).reverse

/-- Boolean prefix test on character lists (Python `str.startswith`). -/
def startsWithL : List Char → List Char → Bool
  | [], _ => true
  | _ :: _, [] => false
  | p :: ps, c :: cs => p == c && startsWithL ps cs

/-- Boolean suffix test (Python `str.endswith`). -/
def endsWithL (p l : List Char) : Bool := startsWithL p.reverse l.reverse

/-- Boolean substring test (Python `in` on strings). -/
def containsSub (p : List Char) : List Char → Bool
  | [] => startsWithL p []
  | c :: cs => startsWithL p (c :: cs) || containsSub p cs

/-- The literal marker `-swapped.png` handled by all three extractor nodes. -/
def marker : List Char := "-swapped.png".toList

/-- The recognized image extensions, case-sensitive, in source order. -/
def knownExts : List (List Char) :=
  [".png".toList, ".jpg".toList, ".jpeg".toList, ".gif".toList,
   ".bmp".toList, ".tiff".toList, ".webp".toList]

/-- `any(clean_filename.endswith(ext) for ext in [...])`. -/
def hasKnownExt (l : List Char) : Bool := knownExts.any (fun e => endsWithL e l)

/-- Scanner for `s.replace("-swapped.png", "")`: the first argument counts
characters that belong to an occurrence already recognised and still to be
skipped. -/
def removeSwappedAux : Nat → List Char → List Char
  | _, [] => []
  | n + 1, _ :: cs => removeSwappedAux n cs
  | 0, c :: cs =>
    if startsWithL marker (c :: cs) then removeSwappedAux (marker.length - 1) cs
    else c :: removeSwappedAux 0 cs

/-- Python `s.replace("-swapped.png", "")`: a single left-to-right scan that
removes every non-overlapping occurrence (the scan does not revisit text it
has already produced). -/
def removeSwapped (l : List Char) : List Char := removeSwappedAux 0 l

/-- Python `os.path.splitext(p)[1]` (POSIX): the suffix starting at the last
dot of the final path segment, empty when that dot lies in the segment's
leading run of dots (or there is no dot). -/
def extOf (p : List Char) : List Char :=
  let b := (p.reverse.takeWhile (fun c => c != '/')).reverse
  let rest := b.drop (b.takeWhile (fun c => c == '.')).length
  if rest.contains '.' then '.' :: (rest.reverse.takeWhile (fun c => c != '.')).reverse
  else []

/-- Python `os.path.splitext` (POSIX). -/
def splitextPy (p : List Char) : List Char × List Char :=
  (p.take (p.length - (extOf p).length), extOf p)

/-- The shared `-swapped.png` cleanup block (lines 42-48, 92-97 and 186-191 of
`image_filename_extractor.py` are textually identical). -/
def cleanSwapped (clean0 : List Char) : List Char :=
  if endsWithL marker clean0 then
    let c1 := clean0.take (clean0.length - marker.length)
    if hasKnownExt c1 then c1 else c1 ++ ".png".toList
  else if containsSub marker clean0 then removeSwapped clean0
  else clean0

namespace ReliableFilenameExtractor

/-- `ReliableFilenameExtractor.extract_filename` from
`image_filename_extractor.py`: the full node entry point, including the
optional image passthrough. -/
def extract_filename {α : Type} (image_name : List Char) (image : Option α) :
    List Char × List Char × List Char × Option α :=
  if image_name = [] ∨ strip image_name = [] then ([], [], [], image)
  else
    let clean := cleanSwapped (basename (strip image_name))
    (clean, (splitextPy clean).1, (splitextPy clean).2, image)

/-- The spec's `normalize(raw) -> (full, stem, ext)`: the string triple
computed by `extract_filename` (the image argument plays no role in it). -/
def normalize (raw : List Char) : List Char × List Char × List Char :=
  ((extract_filename raw (none : Option Unit)).1,
   (extract_filename raw (none : Option Unit)).2.1,
   (extract_filename raw (none : Option Unit)).2.2.1)

end ReliableFilenameExtractor

/-- The spec's reading of the "elsewhere" rule: remove only the first
occurrence of `-swapped.png` and leave any later occurrence in place. -/
def removeFirstMarker : List Char → List Char
  | [] => []
  | c :: cs =>
    if startsWithL marker (c :: cs) then (c :: cs).drop marker.length
    else c :: removeFirstMarker cs

/-- Scanner splitting a name on `-swapped.png` (Python `s.split(m)`), with the
same skip-counter device as `removeSwappedAux`. -/
def splitOnMarkerAux : Nat → List Char → List (List Char)
  | _, [] => [[]]
  | n + 1, _ :: cs => splitOnMarkerAux n cs
  | 0, c :: cs =>
    if startsWithL marker (c :: cs) then [] :: splitOnMarkerAux (marker.length - 1) cs
    else
      match splitOnMarkerAux 0 cs with
      | [] => [[c]]
      | p :: ps => (c :: p) :: ps

/-- Python `s.split("-swapped.png")`. -/
def splitOnMarker (l : List Char) : List (List Char) := splitOnMarkerAux 0 l

namespace ImprovedImageFilenameExtractor

/-- The host-provided opaque image object, restricted to the attributes the
probing code inspects.  `filename` and `metadata` values are the `str()` of
whatever the host stored; `names` is either a list/tuple of strings or a
plain string.  A `none` field models `hasattr` returning `False`, and for
`metadata` also the attribute not being a `dict`. -/
structure ImageObj where
  filename : Option (List Char)
  names : Option (List (List Char) ⊕ List Char)
  metadata : Option (Option (List Char))

/-- Probe (a): the direct `filename` attribute (truthy check included). -/
def probeDirect (img : ImageObj) : List Char :=
  match img.filename with
  | some v => if v = [] then [] else v
  | none => []

/-- Probe (b): the `names` attribute — first element when it is a
list/tuple, the `str()` of the value otherwise (truthy check included). -/
def probeNames (img : ImageObj) : List Char :=
  match img.names with
  | some (Sum.inl []) => []
  | some (Sum.inl (x :: _)) => x
  | some (Sum.inr s) => s
  | none => []

/-- Probe (c): the `metadata` mapping's `filename` key. -/
def probeMeta (img : ImageObj) : List Char :=
  match img.metadata with
  | some (some v) => v
  | _ => []

/-- `ImprovedImageFilenameExtractor.extract_filename`, methods 1-3: the
sequential probing that fills the `filename` local (method 4 never assigns
it). -/
def discover_filename (img : ImageObj) : List Char :=
  let f1 :=
    match img.filename with
    | some v => if v = [] then [] else v
    | none => []
  let f2 :=
    if f1 = [] then
      match img.names with
      | some (Sum.inl []) => f1
      | some (Sum.inl (x :: _)) => x
      | some (Sum.inr s) => s
      | none => f1
    else f1
  let f3 :=
    if f2 = [] then
      match img.metadata with
      | some (some v) => v
      | some none => f2
      | none => f2
    else f2
  f3

/-- The probe results in the code's fixed priority order. -/
def probeResults (img : ImageObj) : List (List Char) :=
  [probeDirect img, probeNames img, probeMeta img]

/-- Modelled from the spec's words: the highest-priority non-empty probe
result, empty when no probe matches. -/
def discover_spec (img : ImageObj) : List Char :=
  match (probeResults img).find? (fun v => !v.isEmpty) with
  | some v => v
  | none => []

/-- The sentinel the node substitutes when discovery fails. -/
def sentinel : List Char := "no_filename_found".toList

/-- `ImprovedImageFilenameExtractor.extract_filename`, cleanup section
(lines 182-193): the string output of the node. -/
def extract_filename (img : ImageObj) : List Char :=
  let f := discover_filename img
  if f = [] ∨ f = "None".toList ∨ f = "none".toList then sentinel
  else cleanSwapped (basename f)

end ImprovedImageFilenameExtractor

namespace ResolutionDetectorFromFilename

def tag480 : List Char := "480p".toList

def tag720 : List Char := "720p".toList

/-- The fallback sentinel shown when no model folder exists. -/
def noModelsFound : List Char := "No models found".toList

/-- Python `str.lower()` restricted to ASCII, which is all that matters for
matching `480p`/`720p` case-insensitively. -/
def lowerAll (l : List Char) : List Char := l.map Char.toLower

/-- `re.search(r'(480p|720p)', s, re.IGNORECASE)`: scan positions left to
right; at each position try the alternatives in order.  The returned text is
already lowercased (`match.group(1).lower()`). -/
def searchRes : List Char → Option (List Char)
  | [] => none
  | c :: cs =>
    if startsWithL tag480 (lowerAll (c :: cs)) then some tag480
    else if startsWithL tag720 (lowerAll (c :: cs)) then some tag720
    else searchRes cs

/-- `ResolutionDetectorFromFilename.detect_resolution`. -/
def detect_resolution (model_filename : List Char) : List Char :=
  if model_filename ≠ [] ∧ model_filename ≠ noModelsFound then
    match searchRes model_filename with
    | some r => r
    | none => []
  else []

/-- Whether the lowered tail starting at position `i` begins with `tag`. -/
def tagAt (tag l : List Char) (i : Nat) : Bool :=
  startsWithL tag (lowerAll (l.drop i))

/-- One probe position of the spec's scan: the tag matching at position `i`,
`480p` and `720p` distinguished only by what the text contains. -/
def resAtPos (l : List Char) (i : Nat) : Option (List Char) :=
  if tagAt tag480 l i then some tag480
  else if tagAt tag720 l i then some tag720
  else none

/-- Modelled from the spec's words: the leftmost case-insensitive occurrence
of `480p`/`720p`, lowercased; empty on no match or sentinel input. -/
def extract_resolution (l : List Char) : List Char :=
  if l = [] ∨ l = noModelsFound then []
  else
    match (List.range l.length).findSome? (resAtPos l) with
    | some r => r
    | none => []

end ResolutionDetectorFromFilename

namespace WAN21ModelTracker

/-- A key of the `_loaded_models` dict.  The code only ever inserts keys of
the form `f"recent_{len(dict)}"`; reads additionally look up `str(id(model))`
keys, which never start with `recent_`.  Keys are modelled by their
constructor and index: Python renders distinct indices to distinct decimal
strings, so key equality coincides with index equality. -/
inductive CacheKey where
  | recent (n : Nat)
  | modelId (s : List Char)
deriving DecidableEq

/-- `k.startswith('recent_')`. -/
def isRecent : CacheKey → Bool
  | .recent _ => true
  | .modelId _ => false

/-- The `_loaded_models` class dict: insertion-ordered key/value pairs, as
Python dicts are. -/
abbrev CacheState := List (CacheKey × List Char)

/-- Python `d[k] = v`: update in place when the key exists, append
otherwise. -/
def dictSet (st : CacheState) (k : CacheKey) (v : List Char) : CacheState :=
  if st.any (fun kv => kv.1 == k) then
    st.map (fun kv => if kv.1 == k then (k, v) else kv)
  else st ++ [(k, v)]

/-- The model-file extensions the interception hook tracks. -/
def modelExts : List (List Char) :=
  [".safetensors".toList, ".ckpt".toList, ".pt".toList, ".pth".toList]

/-- `any(ext in path.lower() for ext in [...])` guarding the tracking. -/
def isModelPath (path : List Char) : Bool :=
  modelExts.any (fun e => containsSub e (path.map Char.toLower))

/-- The state effect of `tracked_load_torch_file` on `_loaded_models`:
tracked loads store the base name under the key `recent_{len(dict)}`. -/
def tracked_load_torch_file (st : CacheState) (path : List Char) : CacheState :=
  if isModelPath path then dictSet st (CacheKey.recent st.length) (basename path)
  else st

/-- The cache contents after a sequence of host load calls, starting from the
empty dict the class is initialised with. -/
def runLoads (paths : List (List Char)) : CacheState :=
  paths.foldl tracked_load_torch_file []

/-- `[v for k, v in self._loaded_models.items() if k.startswith('recent_')]`. -/
def recentValues (st : CacheState) : List (List Char) :=
  (st.filter (fun kv => isRecent kv.1)).map (fun kv => kv.2)

/-- The cache read performed by `WAN21ModelTracker.detect_resolution`:
`recent_files[-1]` when any tracked file exists. -/
def readCache (st : CacheState) : Option (List Char) :=
  (recentValues st).getLast?

/-- The keys of the dict, in insertion order. -/
def keysOf (st : CacheState) : List CacheKey := st.map (fun kv => kv.1)

/-- Invariant of `_loaded_models`: the keys are exactly
`recent_0 … recent_{len-1}`, in order. -/
def goodKeys (st : CacheState) : Prop :=
  keysOf st = (List.range st.length).map CacheKey.recent

end WAN21ModelTracker

/-! ## Helper lemmas -/

theorem startsWithL_iff : ∀ (p l : List Char), startsWithL p l = true ↔ p <+: l
  | [], l => by simp [startsWithL]
  | p :: ps, [] => by simp [startsWithL]
  | p :: ps, c :: cs => by
    simp [startsWithL, List.cons_prefix_cons, startsWithL_iff ps cs]

theorem endsWithL_iff (p l : List Char) : endsWithL p l = true ↔ p <:+ l := by
  simp [endsWithL, startsWithL_iff, List.reverse_prefix]

theorem containsSub_iff : ∀ (p l : List Char), containsSub p l = true ↔ p <:+: l
  | p, [] => by simp [containsSub, startsWithL_iff]
  | p, c :: cs => by
    simp [containsSub, startsWithL_iff, containsSub_iff p cs, List.infix_cons_iff]

theorem endsWithL_marker_of_contains {l : List Char}
    (h : containsSub marker l = false) : endsWithL marker l = false := by
  cases he : endsWithL marker l with
  | false => rfl
  | true =>
    have hc : containsSub marker l = true :=
      (containsSub_iff marker l).mpr ((endsWithL_iff marker l).mp he).isInfix
    rw [hc] at h
    simp at h

theorem takeWhile_append_all (pr : Char → Bool) :
    ∀ (as bs : List Char), (∀ a ∈ as, pr a = true) →
      List.takeWhile pr (as ++ bs) = as ++ List.takeWhile pr bs
  | [], bs, _ => by simp
  | a :: as, bs, h => by
    have ha : pr a = true := h a (by simp)
    simp only [List.cons_append, List.takeWhile_cons, ha, if_true]
    rw [takeWhile_append_all pr as bs (fun x hx => h x (by simp [hx]))]

theorem takeWhile_eq_self_of_all (pr : Char → Bool) (l : List Char)
    (h : ∀ a ∈ l, pr a = true) : List.takeWhile pr l = l := by
  have := takeWhile_append_all pr l [] h
  simpa using this

theorem dropWhile_keep (pr : Char → Bool) (as : List Char) (c : Char) (bs : List Char)
    (ha : List.dropWhile pr as = as) (hc : pr c = false) :
    List.dropWhile pr (as ++ c :: bs) = as ++ c :: bs := by
  cases as with
  | nil => simp [List.dropWhile_cons, hc]
  | cons a t =>
    have hpa : pr a = false := by
      by_contra hco
      have hpa' : pr a = true := by revert hco; cases pr a <;> simp
      rw [List.dropWhile_cons, if_pos hpa'] at ha
      have : t.length + 1 ≤ t.length := by
        calc t.length + 1 = (a :: t).length := by simp
        _ = (List.dropWhile pr t).length := by rw [← ha]
        _ ≤ t.length := (List.dropWhile_sublist pr).length_le
      omega
    simp [List.dropWhile_cons, hpa]

theorem basename_no_slash {l : List Char} (h : '/' ∉ l) : basename l = l := by
  unfold basename
  rw [takeWhile_eq_self_of_all _ l.reverse (by
    intro a ha
    have : a ∈ l := by simpa using ha
    have : a ≠ '/' := fun he => h (he ▸ this)
    simpa using this)]
  exact l.reverse_reverse

theorem normalize_blank {raw : List Char} (h : raw = [] ∨ strip raw = []) :
    ReliableFilenameExtractor.normalize raw = ([], [], []) := by
  unfold ReliableFilenameExtractor.normalize ReliableFilenameExtractor.extract_filename
  rw [if_pos h]

theorem normalize_nonblank {raw : List Char} (h : ¬(raw = [] ∨ strip raw = [])) :
    ReliableFilenameExtractor.normalize raw =
      (cleanSwapped (basename (strip raw)),
       (splitextPy (cleanSwapped (basename (strip raw)))).1,
       (splitextPy (cleanSwapped (basename (strip raw)))).2) := by
  unfold ReliableFilenameExtractor.normalize ReliableFilenameExtractor.extract_filename
  rw [if_neg h]

theorem marker_suffix_lstrip : ∀ (l : List Char), marker <:+ l → marker <:+ lstrip l
  | [], h => by
    rw [List.suffix_nil] at h
    exact absurd h (by decide)
  | c :: cs, h => by
    rcases List.suffix_cons_iff.mp h with he | ht
    · have hm : marker = '-' :: "swapped.png".toList := by decide
      rw [hm] at he
      injection he with h1 h2
      subst h1
      simp only [lstrip, List.dropWhile_cons]
      rw [if_neg (by decide)]
      exact h
    · by_cases hw : isWs c = true
      · simp only [lstrip, List.dropWhile_cons]
        rw [if_pos hw]
        exact marker_suffix_lstrip cs ht
      · simp only [lstrip, List.dropWhile_cons]
        rw [if_neg hw]
        exact h

theorem rstrip_of_marker_suffix {l : List Char} (h : marker <:+ l) : rstrip l = l := by
  obtain ⟨t, rfl⟩ := h
  have h1 : (t ++ marker).reverse = 'g' :: ("np.deppaws-".toList ++ t.reverse) := by
    rw [List.reverse_append]
    rfl
  simp only [rstrip]
  rw [h1, List.dropWhile_cons, if_neg (by decide), ← h1, List.reverse_reverse]

theorem basename_of_marker_suffix {l : List Char} (h : marker <:+ l) :
    marker <:+ basename l := by
  obtain ⟨t, rfl⟩ := h
  unfold basename
  rw [List.reverse_append,
    takeWhile_append_all _ marker.reverse t.reverse (by decide),
    List.reverse_append, List.reverse_reverse]
  exact List.suffix_append _ _

theorem clean_of_marker_suffix {raw : List Char} (h : endsWithL marker raw = true) :
    marker <:+ basename (strip raw) ∧ strip raw ≠ [] ∧ raw ≠ [] := by
  have hs : marker <:+ raw := (endsWithL_iff _ _).mp h
  have hls : marker <:+ lstrip raw := marker_suffix_lstrip raw hs
  have hstrip : strip raw = lstrip raw := by
    simp only [strip]
    exact rstrip_of_marker_suffix hls
  refine ⟨?_, ?_, ?_⟩
  · rw [hstrip]
    exact basename_of_marker_suffix hls
  · rw [hstrip]
    intro hnil
    rw [hnil, List.suffix_nil] at hls
    exact absurd hls (by decide)
  · intro hnil
    rw [hnil, List.suffix_nil] at hs
    exact absurd hs (by decide)

theorem lstrip_append_slash : ∀ (xs bs : List Char),
    lstrip (xs ++ '/' :: bs) = lstrip xs ++ '/' :: bs
  | [], bs => by
    simp only [List.nil_append, lstrip, List.dropWhile_nil, List.dropWhile_cons]
    rw [if_neg (by decide)]
  | c :: cs, bs => by
    simp only [lstrip, List.cons_append, List.dropWhile_cons]
    by_cases hw : isWs c = true
    · rw [if_pos hw, if_pos hw]
      exact lstrip_append_slash cs bs
    · rw [if_neg hw, if_neg hw]
      simp

theorem strip_append_slash (pre raw : List Char) (h2 : rstrip raw = raw) :
    strip (pre ++ '/' :: raw) = lstrip pre ++ '/' :: raw := by
  simp only [strip]
  rw [lstrip_append_slash pre raw]
  simp only [rstrip]
  have hdw : List.dropWhile isWs raw.reverse = raw.reverse := by
    have := congrArg List.reverse h2
    simp only [rstrip, List.reverse_reverse] at this
    exact this
  have hrev : (lstrip pre ++ '/' :: raw).reverse = raw.reverse ++ '/' :: (lstrip pre).reverse := by
    simp [List.reverse_append]
  rw [hrev, dropWhile_keep isWs raw.reverse '/' (lstrip pre).reverse hdw (by decide),
    ← hrev, List.reverse_reverse]

theorem basename_append_slash (z raw : List Char) (h3 : '/' ∉ raw) :
    basename (z ++ '/' :: raw) = raw := by
  unfold basename
  have hrev : (z ++ '/' :: raw).reverse = raw.reverse ++ '/' :: z.reverse := by
    simp [List.reverse_append]
  rw [hrev]
  rw [takeWhile_append_all _ raw.reverse ('/' :: z.reverse) (by
    intro a ha
    have ham : a ∈ raw := by simpa using ha
    have hne : a ≠ '/' := fun he => h3 (he ▸ ham)
    simpa using hne)]
  rw [List.takeWhile_cons, if_neg (by simp)]
  simp

theorem marker_length_eq : marker.length = 12 := by decide

theorem removeSwappedAux_skip : ∀ (l : List Char) (n : Nat),
    removeSwappedAux n l = removeSwappedAux 0 (l.drop n)
  | l, 0 => by simp
  | [], n + 1 => by simp [removeSwappedAux]
  | c :: cs, n + 1 => by
    simp only [removeSwappedAux, List.drop_succ_cons]
    exact removeSwappedAux_skip cs n

theorem removeSwapped_cons (c : Char) (cs : List Char) :
    removeSwapped (c :: cs) =
      if startsWithL marker (c :: cs) then removeSwapped ((c :: cs).drop marker.length)
      else c :: removeSwapped cs := by
  simp only [removeSwapped, removeSwappedAux]
  by_cases h : startsWithL marker (c :: cs) = true
  · rw [if_pos h, if_pos h, removeSwappedAux_skip cs (marker.length - 1)]
    congr 1
  · rw [if_neg h, if_neg h]

theorem splitOnMarkerAux_skip : ∀ (l : List Char) (n : Nat),
    splitOnMarkerAux n l = splitOnMarkerAux 0 (l.drop n)
  | l, 0 => by simp
  | [], n + 1 => by simp [splitOnMarkerAux]
  | c :: cs, n + 1 => by
    simp only [splitOnMarkerAux, List.drop_succ_cons]
    exact splitOnMarkerAux_skip cs n

theorem splitOnMarkerAux_ne_nil : ∀ (n : Nat) (l : List Char), splitOnMarkerAux n l ≠ []
  | _, [] => by simp [splitOnMarkerAux]
  | n + 1, c :: cs => by
    simp only [splitOnMarkerAux]
    exact splitOnMarkerAux_ne_nil n cs
  | 0, c :: cs => by
    simp only [splitOnMarkerAux]
    split
    · simp
    · split <;> simp

theorem splitOnMarker_ne_nil (l : List Char) : splitOnMarker l ≠ [] :=
  splitOnMarkerAux_ne_nil 0 l

theorem splitOnMarker_cons (c : Char) (cs : List Char) :
    splitOnMarker (c :: cs) =
      if startsWithL marker (c :: cs) then [] :: splitOnMarker ((c :: cs).drop marker.length)
      else
        match splitOnMarker cs with
        | [] => [[c]]
        | p :: ps => (c :: p) :: ps := by
  simp only [splitOnMarker, splitOnMarkerAux]
  by_cases h : startsWithL marker (c :: cs) = true
  · rw [if_pos h, if_pos h, splitOnMarkerAux_skip cs (marker.length - 1)]
    congr 2
  · rw [if_neg h, if_neg h]

theorem flatten_split : ∀ (n : Nat) (l : List Char), l.length ≤ n →
    (splitOnMarker l).flatten = removeSwapped l
  | _, [], _ => by simp [splitOnMarker, splitOnMarkerAux, removeSwapped, removeSwappedAux]
  | 0, c :: cs, h => by simp at h
  | n + 1, c :: cs, h => by
    rw [splitOnMarker_cons, removeSwapped_cons]
    by_cases hs : startsWithL marker (c :: cs) = true
    · rw [if_pos hs, if_pos hs]
      simp only [List.flatten_cons, List.nil_append]
      exact flatten_split n ((c :: cs).drop marker.length) (by
        simp only [List.length_drop, List.length_cons, marker_length_eq]
        simp only [List.length_cons] at h
        omega)
    · rw [if_neg hs, if_neg hs]
      cases hsp : splitOnMarker cs with
      | nil => exact absurd hsp (splitOnMarker_ne_nil cs)
      | cons p ps =>
        have ih := flatten_split n cs (by simp only [List.length_cons] at h; omega)
        rw [hsp] at ih
        simp only [List.flatten_cons] at ih
        simp only [List.flatten_cons, List.cons_append]
        rw [ih]

theorem flatten_splitOnMarker (l : List Char) :
    (splitOnMarker l).flatten = removeSwapped l :=
  flatten_split l.length l le_rfl

namespace ResolutionDetectorFromFilename

theorem searchRes_eq : ∀ (l : List Char),
    searchRes l = (List.range l.length).findSome? (resAtPos l)
  | [] => by simp [searchRes]
  | c :: cs => by
    have hshift : resAtPos (c :: cs) ∘ Nat.succ = resAtPos cs := by
      funext i
      simp [resAtPos, tagAt, List.drop_succ_cons]
    have h0 : resAtPos (c :: cs) 0 =
        if startsWithL tag480 (lowerAll (c :: cs)) then some tag480
        else if startsWithL tag720 (lowerAll (c :: cs)) then some tag720 else none := by
      simp [resAtPos, tagAt]
    simp only [List.length_cons, List.range_succ_eq_map, List.findSome?_cons,
      List.findSome?_map, hshift, ← searchRes_eq cs, h0]
    by_cases h4 : startsWithL tag480 (lowerAll (c :: cs)) = true
    · simp [searchRes, h4]
    · by_cases h7 : startsWithL tag720 (lowerAll (c :: cs)) = true
      · simp [searchRes, h4, h7]
      · simp [searchRes, h4, h7]

end ResolutionDetectorFromFilename

namespace WAN21ModelTracker

theorem goodKeys_nil : goodKeys [] := by simp [goodKeys, keysOf]

theorem fresh_key {st : CacheState} (h : goodKeys st) :
    st.any (fun kv => kv.1 == CacheKey.recent st.length) = false := by
  rw [List.any_eq_false]
  intro kv hkv
  simp only [beq_iff_eq]
  intro heq
  have hk : CacheKey.recent st.length ∈ keysOf st :=
    heq ▸ List.mem_map_of_mem _ hkv
  rw [h] at hk
  obtain ⟨i, hi, hie⟩ := List.mem_map.mp hk
  injection hie with hie'
  rw [List.mem_range] at hi
  omega

theorem step_good {st : CacheState} (p : List Char) (h : goodKeys st) :
    goodKeys (tracked_load_torch_file st p) := by
  unfold tracked_load_torch_file
  by_cases hm : isModelPath p = true
  · rw [if_pos hm]
    unfold dictSet
    rw [if_neg (by rw [fresh_key h]; simp)]
    have hkeys : keysOf (st ++ [(CacheKey.recent st.length, basename p)]) =
        keysOf st ++ [CacheKey.recent st.length] := by simp [keysOf]
    unfold goodKeys
    rw [hkeys, h, List.length_append]
    simp [List.range_succ]
  · rw [if_neg hm]
    exact h

theorem foldl_good : ∀ (paths : List (List Char)) (st : CacheState), goodKeys st →
    goodKeys (List.foldl tracked_load_torch_file st paths)
  | [], _, h => h
  | p :: ps, _st, h => foldl_good ps _ (step_good p h)

theorem read_after_model {st : CacheState} (p : List Char) (h : goodKeys st)
    (hm : isModelPath p = true) :
    readCache (tracked_load_torch_file st p) = some (basename p) := by
  unfold tracked_load_torch_file
  rw [if_pos hm]
  unfold dictSet
  rw [if_neg (by rw [fresh_key h]; simp)]
  unfold readCache recentValues
  rw [List.filter_append, List.map_append]
  simp only [List.filter_cons, List.filter_nil, isRecent, if_pos, List.map_cons, List.map_nil]
  rw [List.getLast?_concat]

theorem skip_nonmodels : ∀ (post : List (List Char)) (st : CacheState),
    (∀ q ∈ post, isModelPath q = false) →
    List.foldl tracked_load_torch_file st post = st
  | [], _st, _ => rfl
  | q :: qs, st, h => by
    have hq : isModelPath q = false := h q (by simp)
    have hst : tracked_load_torch_file st q = st := by
      unfold tracked_load_torch_file
      rw [if_neg (by simp [hq])]
    rw [List.foldl_cons, hst]
    exact skip_nonmodels qs st (fun x hx => h x (by simp [hx]))

end WAN21ModelTracker

/-! ## Claim theorems -/

/-- C1 counterexample: on `a-swapped.png-swapped.png.jpg` (marker occurs twice,
not as a suffix) the normalizer yields `a.jpg`, not the `a-swapped.png.jpg`
that removing only the first occurrence would give. -/
theorem swapped_elsewhere_cex :
    endsWithL marker ("a-swapped.png-swapped.png.jpg".toList) = false ∧
    containsSub marker ("a-swapped.png-swapped.png.jpg".toList) = true ∧
    (ReliableFilenameExtractor.normalize ("a-swapped.png-swapped.png.jpg".toList)).1 =
      "a.jpg".toList ∧
    removeFirstMarker ("a-swapped.png-swapped.png.jpg".toList) =
      "a-swapped.png.jpg".toList ∧
    (ReliableFilenameExtractor.normalize ("a-swapped.png-swapped.png.jpg".toList)).1 ≠
      removeFirstMarker ("a-swapped.png-swapped.png.jpg".toList) := by
  decide

/-- C1 (amended): when the cleaned name contains `-swapped.png` but not as a
suffix, the normalizer removes every occurrence found in one left-to-right
scan — equivalently, it splits the name on the marker and concatenates the
pieces — not just the first occurrence. -/
theorem swapped_elsewhere_removes_all (raw : List Char)
    (h1 : endsWithL marker (basename (strip raw)) = false)
    (h2 : containsSub marker (basename (strip raw)) = true) :
    ReliableFilenameExtractor.normalize raw =
      ((splitOnMarker (basename (strip raw))).flatten,
       (splitextPy ((splitOnMarker (basename (strip raw))).flatten)).1,
       (splitextPy ((splitOnMarker (basename (strip raw))).flatten)).2) := by
  have hnb : ¬(raw = [] ∨ strip raw = []) := by
    rintro (hx | hx)
    · subst hx
      exact absurd h2 (by decide)
    · rw [hx] at h2
      exact absurd h2 (by decide)
  rw [normalize_nonblank hnb]
  unfold cleanSwapped
  rw [if_neg (by simp [h1]), if_pos h2, ← flatten_splitOnMarker]

/-- C1 witness: the spec's own mid-string example, settled through the
amended theorem. -/
theorem swapped_elsewhere_removes_all_witness :
    ReliableFilenameExtractor.normalize ("photo-swapped.png.jpg".toList) =
      ("photo.jpg".toList, "photo".toList, ".jpg".toList) :=
  (swapped_elsewhere_removes_all ("photo-swapped.png.jpg".toList)
    (by decide) (by decide)).trans (by decide)

/-- C2 counterexample: normalization is not idempotent.  `/ a` normalizes to
full name ` a`, which renormalizes to `a`; `x-swapped.png-swapped.png`
normalizes to full name `x-swapped.png`, which renormalizes to `x.png`. -/
theorem normalize_not_idempotent_cex :
    ReliableFilenameExtractor.normalize
        ((ReliableFilenameExtractor.normalize ("/ a".toList)).1) ≠
      ReliableFilenameExtractor.normalize ("/ a".toList) ∧
    ReliableFilenameExtractor.normalize
        ((ReliableFilenameExtractor.normalize ("x-swapped.png-swapped.png".toList)).1) ≠
      ReliableFilenameExtractor.normalize ("x-swapped.png-swapped.png".toList) := by
  decide

/-- C2 (amended): normalization is idempotent for every input whose normalized
full name carries no leading or trailing whitespace, no `/`, and no occurrence
of the marker `-swapped.png`. -/
theorem normalize_idempotent_on_clean (x : List Char)
    (h1 : lstrip (ReliableFilenameExtractor.normalize x).1 =
      (ReliableFilenameExtractor.normalize x).1)
    (h2 : rstrip (ReliableFilenameExtractor.normalize x).1 =
      (ReliableFilenameExtractor.normalize x).1)
    (h3 : '/' ∉ (ReliableFilenameExtractor.normalize x).1)
    (h4 : containsSub marker (ReliableFilenameExtractor.normalize x).1 = false) :
    ReliableFilenameExtractor.normalize (ReliableFilenameExtractor.normalize x).1 =
      ReliableFilenameExtractor.normalize x := by
  by_cases hb : x = [] ∨ strip x = []
  · rw [normalize_blank hb]
    exact normalize_blank (Or.inl rfl)
  · have hmain := normalize_nonblank hb
    set c := cleanSwapped (basename (strip x)) with hc
    rw [hmain] at h1 h2 h3 h4 ⊢
    dsimp only at h1 h2 h3 h4 ⊢
    by_cases hcn : c = []
    · rw [hcn]
      decide
    · have hsn : strip c = c := by
        simp only [strip]
        rw [h1, h2]
      have hnb2 : ¬(c = [] ∨ strip c = []) := by
        rintro (hx | hx)
        · exact hcn hx
        · rw [hsn] at hx
          exact hcn hx
      rw [normalize_nonblank hnb2, hsn, basename_no_slash h3]
      have hend : endsWithL marker c = false := endsWithL_marker_of_contains h4
      unfold cleanSwapped
      rw [if_neg (by simp [hend]), if_neg (by simp [h4])]

/-- C2 witness: an already-clean normalized name renormalizes to itself. -/
theorem normalize_idempotent_on_clean_witness :
    ReliableFilenameExtractor.normalize
        ((ReliableFilenameExtractor.normalize ("photo-swapped.png".toList)).1) =
      ReliableFilenameExtractor.normalize ("photo-swapped.png".toList) :=
  normalize_idempotent_on_clean ("photo-swapped.png".toList)
    (by decide) (by decide) (by decide) (by decide)

/-- C3: a filename ending with `-swapped.png` has that suffix removed from its
cleaned name (`c1` below), and `.png` is appended exactly when the remainder
does not end in one of the recognized case-sensitive extensions. -/
theorem swapped_suffix_rule (raw c1 : List Char) (h : endsWithL marker raw = true)
    (hc : c1 ++ marker = basename (strip raw)) :
    ReliableFilenameExtractor.normalize raw =
      (let f := if hasKnownExt c1 then c1 else c1 ++ ".png".toList
       (f, (splitextPy f).1, (splitextPy f).2)) := by
  obtain ⟨hb, hsne, hrne⟩ := clean_of_marker_suffix h
  have hnb : ¬(raw = [] ∨ strip raw = []) := by
    rintro (hx | hx)
    · exact hrne hx
    · exact hsne hx
  rw [normalize_nonblank hnb]
  have hend : endsWithL marker (basename (strip raw)) = true := (endsWithL_iff _ _).mpr hb
  have htake : (basename (strip raw)).take ((basename (strip raw)).length - marker.length)
      = c1 := by
    rw [← hc, List.length_append]
    have hlen : c1.length + marker.length - marker.length = c1.length := by omega
    rw [hlen, List.take_left]
  unfold cleanSwapped
  rw [if_pos hend, htake]

/-- C3 witness: the claim's own example `photo-swapped.png`. -/
theorem swapped_suffix_rule_witness :
    ReliableFilenameExtractor.normalize ("photo-swapped.png".toList) =
      ("photo.png".toList, "photo".toList, ".png".toList) :=
  (swapped_suffix_rule ("photo-swapped.png".toList) ("photo".toList)
    (by decide) (by decide)).trans (by decide)

/-- C7: directory components are stripped before every other rule, so a name
prefixed with any directory path normalizes exactly like its final segment
(for final segments that carry no surrounding whitespace, which the outer
strip would otherwise remove only in the prefixed form). -/
theorem directories_stripped_first (pre raw : List Char)
    (h1 : lstrip raw = raw) (h2 : rstrip raw = raw) (h3 : '/' ∉ raw) :
    ReliableFilenameExtractor.normalize (pre ++ '/' :: raw) =
      ReliableFilenameExtractor.normalize raw := by
  have hs : strip (pre ++ '/' :: raw) = lstrip pre ++ '/' :: raw :=
    strip_append_slash pre raw h2
  have hb : basename (strip (pre ++ '/' :: raw)) = raw := by
    rw [hs]
    exact basename_append_slash _ _ h3
  have hnb : ¬(pre ++ '/' :: raw = [] ∨ strip (pre ++ '/' :: raw) = []) := by
    rintro (hx | hx)
    · simp [List.append_eq_nil] at hx
    · rw [hs] at hx
      simp [List.append_eq_nil] at hx
  rw [normalize_nonblank hnb, hb]
  by_cases hr : raw = []
  · subst hr
    rw [normalize_blank (Or.inl rfl)]
    decide
  · have hsr : strip raw = raw := by
      simp only [strip]
      rw [h1, h2]
    have hnb2 : ¬(raw = [] ∨ strip raw = []) := by
      rintro (hx | hx)
      · exact hr hx
      · rw [hsr] at hx
        exact hr hx
    rw [normalize_nonblank hnb2, hsr, basename_no_slash h3]

/-- C7 witness: the claim's own example `a/b/c-swapped.png`. -/
theorem directories_stripped_first_witness :
    ReliableFilenameExtractor.normalize ("a/b".toList ++ '/' :: "c-swapped.png".toList) =
      ("c.png".toList, "c".toList, ".png".toList) :=
  (directories_stripped_first ("a/b".toList) ("c-swapped.png".toList)
    (by decide) (by decide) (by decide)).trans (by decide)

/-- C8: blank input is handled totally: an empty or whitespace-only name
normalizes to the empty triple, and the resolution detector returns the empty
string on empty input and on its no-selection sentinel. -/
theorem blank_input_total (raw : List Char) (h : strip raw = []) :
    ReliableFilenameExtractor.normalize raw = ([], [], []) ∧
    ResolutionDetectorFromFilename.detect_resolution [] = [] ∧
    ResolutionDetectorFromFilename.detect_resolution
      ResolutionDetectorFromFilename.noModelsFound = [] :=
  ⟨normalize_blank (Or.inr h), by decide, by decide⟩

/-- C8 witness: a whitespace-only name. -/
theorem blank_input_total_witness :
    ReliableFilenameExtractor.normalize ("  ".toList) = ([], [], []) :=
  (blank_input_total ("  ".toList) (by decide)).1

/-- C10: `ReliableFilenameExtractor.extract_filename` returns its optional
image argument unchanged as the fourth output in every case. -/
theorem image_passthrough_unchanged {α : Type} (image_name : List Char) (image : Option α) :
    (ReliableFilenameExtractor.extract_filename image_name image).2.2.2 = image := by
  unfold ReliableFilenameExtractor.extract_filename
  split <;> rfl

namespace ResolutionDetectorFromFilename

/-- C4: `detect_resolution` equals the spec's leftmost case-insensitive scan
for `480p`/`720p` (first match in left-to-right position order, lowercased;
empty when nothing matches, on empty input, and on the no-selection
sentinel), and the two markers can never match at the same position, so
position alone decides between them. -/
theorem detect_resolution_leftmost (l : List Char) :
    detect_resolution l = extract_resolution l ∧
    ∀ i, (tagAt tag480 l i && tagAt tag720 l i) = false := by
  constructor
  · unfold detect_resolution extract_resolution
    by_cases h0 : l = [] ∨ l = noModelsFound
    · have hcond : ¬(l ≠ [] ∧ l ≠ noModelsFound) := by tauto
      rw [if_neg hcond, if_pos h0]
    · push_neg at h0
      have hcond : ¬(l = [] ∨ l = noModelsFound) := by tauto
      rw [if_pos h0, if_neg hcond, searchRes_eq]
  · intro i
    unfold tagAt
    cases hd : l.drop i with
    | nil => decide
    | cons a as =>
      simp only [lowerAll, List.map_cons]
      have h4 : startsWithL tag480 (Char.toLower a :: as.map Char.toLower) =
          (('4' == Char.toLower a) && startsWithL ("80p".toList) (as.map Char.toLower)) := rfl
      have h7 : startsWithL tag720 (Char.toLower a :: as.map Char.toLower) =
          (('7' == Char.toLower a) && startsWithL ("20p".toList) (as.map Char.toLower)) := rfl
      rw [h4, h7]
      by_cases hc : ('4' == Char.toLower a) = true
      · have hx : Char.toLower a = '4' := (beq_iff_eq.mp hc).symm
        have h74 : (('7' : Char) == '4') = false := by decide
        rw [hx, h74]
        simp
      · have hcf : ('4' == Char.toLower a) = false := by
          revert hc
          cases ('4' == Char.toLower a) <;> simp
        rw [hcf]
        simp

end ResolutionDetectorFromFilename

namespace ImprovedImageFilenameExtractor

theorem discover_eq_chain (img : ImageObj) :
    discover_filename img =
      (if probeDirect img = [] then
        if probeNames img = [] then probeMeta img else probeNames img
      else probeDirect img) := by
  rcases img with ⟨f, n, m⟩
  rcases f with _ | v <;>
    rcases n with _ | ((_ | ⟨x, xs⟩) | s) <;>
    rcases m with _ | (_ | w) <;>
      simp only [discover_filename, probeDirect, probeNames, probeMeta] <;>
      split_ifs <;>
      simp_all

theorem discover_spec_eq_chain (img : ImageObj) :
    discover_spec img =
      (if probeDirect img = [] then
        if probeNames img = [] then probeMeta img else probeNames img
      else probeDirect img) := by
  unfold discover_spec probeResults
  have hem : ∀ (v : List Char), v ≠ [] → v.isEmpty = false := by
    intro v hv
    cases hh : v.isEmpty with
    | false => rfl
    | true => exact absurd (List.isEmpty_iff.mp hh) hv
  by_cases h1 : probeDirect img = []
  · by_cases h2 : probeNames img = []
    · by_cases h3 : probeMeta img = []
      · simp [List.find?, h1, h2, h3]
      · simp [List.find?, h1, h2, h3, hem _ h3]
    · simp [List.find?, h1, h2, hem _ h2]
  · simp [List.find?, h1, hem _ h1]

/-- C5: discovery probes the `filename` attribute, then the `names`
collection, then the `metadata` mapping, in that fixed order; the first probe
yielding a non-empty string wins, and when every probe fails the discovery
result is empty and the node substitutes its sentinel. -/
theorem discover_filename_priority (img : ImageObj) :
    discover_filename img = discover_spec img ∧
    (discover_filename img = [] → extract_filename img = sentinel) := by
  constructor
  · rw [discover_eq_chain img, discover_spec_eq_chain img]
  · intro h
    simp only [extract_filename]
    rw [h]
    simp

/-- C5 witness: an object with no probeable attribute discovers nothing and
the node reports its sentinel. -/
theorem discover_filename_priority_witness :
    discover_filename (ImageObj.mk none none none) = [] ∧
    extract_filename (ImageObj.mk none none none) = sentinel :=
  ⟨rfl, (discover_filename_priority (ImageObj.mk none none none)).2 rfl⟩

/-- C9: a probed filename equal to the empty string, `None` or `none` is
treated as not found: the cleanup rules are skipped and the node returns the
sentinel `no_filename_found`. -/
theorem none_probe_sentinel (img : ImageObj)
    (h : discover_filename img = [] ∨ discover_filename img = "None".toList ∨
      discover_filename img = "none".toList) :
    extract_filename img = sentinel := by
  simp only [extract_filename]
  rw [if_pos h]

/-- C9 witness: an object whose `filename` attribute stringifies to `None`. -/
theorem none_probe_sentinel_witness :
    extract_filename (ImageObj.mk (some ("None".toList)) none none) = sentinel :=
  none_probe_sentinel (ImageObj.mk (some ("None".toList)) none none)
    (Or.inr (Or.inl rfl))

end ImprovedImageFilenameExtractor

namespace WAN21ModelTracker

/-- C6: the tracked-load cache behaves as a process-wide single-slot
last-write-wins string: after any prior history, a tracked model-file load
followed by only untracked loads leaves the cache read yielding exactly that
load's base name. -/
theorem cache_last_write_wins (pre post : List (List Char)) (p : List Char)
    (hp : isModelPath p = true) (hpost : ∀ q ∈ post, isModelPath q = false) :
    readCache (runLoads (pre ++ p :: post)) = some (basename p) := by
  unfold runLoads
  rw [List.foldl_append, List.foldl_cons, skip_nonmodels post _ hpost]
  exact read_after_model p (foldl_good pre [] goodKeys_nil) hp

/-- C6 witness: two tracked loads and a trailing untracked one; the read
returns the second tracked file's name. -/
theorem cache_last_write_wins_witness :
    readCache (runLoads (["wan21_480p_base.ckpt".toList] ++
      "Wan2_1_720P.safetensors".toList :: ["readme.txt".toList])) =
      some ("Wan2_1_720P.safetensors".toList) :=
  (cache_last_write_wins ["wan21_480p_base.ckpt".toList] ["readme.txt".toList]
    ("Wan2_1_720P.safetensors".toList) (by decide) (by decide)).trans (by decide)

end WAN21ModelTracker

end DjbUtils

